import Mathlib

/-!
Verification of the portfolio optimizer core (main_clean.py).

The source computes, from a price matrix (rows = time points, columns =
assets), the per-period fractional returns, their column means and sample
covariance (pandas semantics), then maximizes the expected portfolio
return over the simplex via scipy SLSQP, and finally derives portfolio
metrics and a discrete share plan.

Embedding conventions:
- numpy/pandas float vectors are modelled as lists of rationals; a pandas
  NaN entry is modelled as the value none of an Option type;
- the pandas statistics (mean with n observations, covariance with the
  unbiased n-1 denominator, NaN when fewer than 2 observations) are
  modelled exactly;
- the positivity of prices assumed by the theorems keeps the rational
  division total (pandas would produce inf for a zero previous price);
- the external scipy solver is modelled by its documented interface: an
  OptimizeResult record carrying the final iterate and a success flag;
  the source never inspects the flag;
- numpy astype(int), which truncates toward zero and raises on non-finite
  values, is modelled by truncQ over an all-or-nothing Option traversal.
-/

namespace PortfolioOpt

/-- Dot product of two vectors, as computed by np.dot on equal-length
arrays (zip-truncating on mismatch, as the claims never exercise). -/
def dot (v w : List ℚ) : ℚ := (List.zipWith (fun a b => a * b) v w).sum

/-- Number of asset columns of a price matrix (the column index of the
pandas DataFrame). -/
def numCols (prices : List (List ℚ)) : Nat := prices.headI.length

/-- Source line 69: adj_close.pct_change().dropna().  Row t of the result
is the elementwise (price[t] - price[t-1]) / price[t-1]; the all-NaN
first row of pct_change is the row dropna removes, hence the pairing of
the matrix with its own tail. -/
def returns_of (prices : List (List ℚ)) : List (List ℚ) :=
  List.zipWith (fun prev cur => List.zipWith (fun p c => (c - p) / p) prev cur)
    prices prices.tail

/-- Column mean of a return matrix (pandas Series.mean over column a). -/
def colMean (rs : List (List ℚ)) (a : Nat) : ℚ :=
  (rs.map (fun r => r.getD a 0)).sum / (rs.length : ℚ)

/-- Source line 70: returns.mean().  pandas yields NaN (none) for a column
with no observations. -/
def mean_returns (prices : List (List ℚ)) : List (Option ℚ) :=
  (List.range (numCols prices)).map
    (fun a =>
      if (returns_of prices).length = 0 then none
      else some (colMean (returns_of prices) a))

/-- One entry of the pandas sample covariance (ddof = 1): NaN (none) with
fewer than 2 observations, else the sum of centered products divided by
n - 1. -/
def cov_entry (rs : List (List ℚ)) (a b : Nat) : Option ℚ :=
  if rs.length < 2 then none
  else some
    ((rs.map (fun r => (r.getD a 0 - colMean rs a) * (r.getD b 0 - colMean rs b))).sum
      / ((rs.length : ℚ) - 1))

/-- Source line 71: returns.cov(). -/
def cov_matrix (prices : List (List ℚ)) : List (List (Option ℚ)) :=
  (List.range (numCols prices)).map
    (fun a => (List.range (numCols prices)).map
      (fun b => cov_entry (returns_of prices) a b))

/-- Source lines 74-75: the objective handed to the solver,
-np.dot(weights, mean_returns). -/
def negative_return (w mu : List ℚ) : ℚ := -(dot w mu)

/-- Source lines 77-78: the feasible region of the solve — every
component bounded in [0, 1] and the components summing to 1 — for a
weight vector of the given length. -/
def feasible (n : Nat) (w : List ℚ) : Prop :=
  w.length = n ∧ (∀ x ∈ w, 0 ≤ x ∧ x ≤ 1) ∧ w.sum = 1

instance (n : Nat) (w : List ℚ) : Decidable (feasible n w) := by
  unfold feasible; infer_instance

/-- The corner weight vector putting everything on asset k. -/
def unitVec (n k : Nat) : List ℚ :=
  (List.range n).map (fun i => if i = k then 1 else 0)

/-- The slice of scipy's OptimizeResult that the source touches or could
touch: the final iterate x and the documented success flag (scipy's
minimize reports non-convergence through this flag instead of raising). -/
structure OptResult where
  x : List ℚ
  success : Bool
deriving DecidableEq

/-- Source lines 81-83: the engine takes result.x and returns it; the
success flag is never consulted and no exception path exists. -/
def optimize_weights (res : OptResult) : List ℚ := res.x

/-- The error taxonomy named by the specification (the source defines no
such exceptions). -/
inductive CoreError where
  | insufficientData
  | optimizationDiverged
  | invalidPrice
deriving DecidableEq

/-- Modelled from the spec: the OptimizationEngine failure contract — an
OptimizationDivergedError, and no weight vector, when the solver did not
converge.  The source has no counterpart of this check. -/
def spec_optimize (res : OptResult) : Except CoreError (List ℚ) :=
  if res.success then Except.ok res.x else Except.error CoreError.optimizationDiverged

/-- Modelled from the spec: the ReturnStatistics failure contract — an
InsufficientDataError when the matrix has fewer than 2 time points or the
cleaned return series is empty.  The source has no counterpart of this
check. -/
def spec_return_statistics (prices : List (List ℚ)) :
    Except CoreError (List (List ℚ)) :=
  if prices.length < 2 ∨ returns_of prices = [] then
    Except.error CoreError.insufficientData
  else Except.ok (returns_of prices)

/-- np.dot(cov_matrix, w): the matrix-vector product, row by row. -/
def matVec (C : List (List ℚ)) (w : List ℚ) : List ℚ :=
  C.map (fun row => dot row w)

/-- Source line 87: port_return = np.dot(optimal_weights, mean_returns). -/
def port_return (w m : List ℚ) : ℚ := dot w m

/-- The argument of the square root on source line 88:
np.dot(optimal_weights.T, np.dot(cov_matrix, optimal_weights)). -/
def quadForm (w : List ℚ) (C : List (List ℚ)) : ℚ := dot w (matVec C w)

/-- Source line 88: np.sqrt of the quadratic form.  np.sqrt of a negative
argument is NaN (none); the source applies no clamping beforehand. -/
noncomputable def port_volatility (w : List ℚ) (C : List (List ℚ)) : Option ℝ :=
  if 0 ≤ quadForm w C then some (Real.sqrt ((quadForm w C : ℚ) : ℝ)) else none

/-- Source line 97: annual_return = port_return * 252. -/
def annual_return (w m : List ℚ) : ℚ := port_return w m * 252

/-- Source line 98: annual_volatility = port_volatility * np.sqrt(252);
NaN propagates. -/
noncomputable def annual_volatility (w : List ℚ) (C : List (List ℚ)) : Option ℝ :=
  (port_volatility w C).map (fun v => v * Real.sqrt 252)

/-- Modelled from the spec: the volatility with the tiny-negative clamp to
0 applied before the square root, as section 4.3 of the specification
prescribes. -/
noncomputable def specClampedVol (w : List ℚ) (C : List (List ℚ)) : ℝ :=
  Real.sqrt ((max (quadForm w C) 0 : ℚ) : ℝ)

/-- The quadratic form written as the specification writes it: the double
sum over index pairs of w[i] * Cov[i][j] * w[j]. -/
def specQuadForm (w : List ℚ) (C : List (List ℚ)) : ℚ :=
  ∑ i ∈ Finset.range w.length, ∑ j ∈ Finset.range w.length,
    w.getD i 0 * (C.getD i []).getD j 0 * w.getD j 0

/-- numpy astype(int) semantics on one value: truncation toward zero. -/
def truncQ (q : ℚ) : ℤ := if 0 ≤ q then ⌊q⌋ else ⌈q⌉

/-- Source line 102: allocation_amount = optimal_weights * investment_limit. -/
def amountsList (w : List ℚ) (B : ℚ) : List ℚ := w.map (fun wi => wi * B)

/-- The elementwise division allocation_amount / latest_prices of source
line 103, with pandas NaN/inf semantics: the quotient is non-finite
(none) exactly when the price is NaN (none) or 0. -/
def share_quotients (amounts : List ℚ) (prices : List (Option ℚ)) : List (Option ℚ) :=
  List.zipWith
    (fun a p => p.bind (fun q => if q = 0 then none else some (a / q)))
    amounts prices

/-- Source line 103, the .astype(int) cast: pandas raises when any entry
is non-finite (none), otherwise truncates every entry toward zero. -/
def astype_int : List (Option ℚ) → Option (List ℤ)
  | [] => some []
  | none :: _ => none
  | some q :: rest => (astype_int rest).map (fun l => truncQ q :: l)

/-- Source lines 102-103: the numeric content of print_allocation — the
per-asset dollar amounts and integer share counts; none models the run
aborting in the astype(int) cast. -/
def print_allocation_plan (w : List ℚ) (B : ℚ) (latest_prices : List (Option ℚ)) :
    Option (List ℚ × List ℤ) :=
  (astype_int (share_quotients (amountsList w B) latest_prices)).map
    (fun shares => (amountsList w B, shares))

/-- The share counts in closed form, when every price is a finite nonzero
number: floor-toward-zero of (w[i] * B) / price[i].  This is also the
formula of section 4.4 of the specification. -/
def sharesList (w : List ℚ) (B : ℚ) (prices : List ℚ) : List ℤ :=
  List.zipWith (fun wi p => truncQ (wi * B / p)) w prices

/-- The specification's AllocationPlanner contract in one pair: dollar
amounts w[i] * B and share counts trunc((w[i] * B) / price[i]). -/
def spec_plan (w : List ℚ) (B : ℚ) (prices : List ℚ) : List ℚ × List ℤ :=
  (amountsList w B, sharesList w B prices)

/-! ### General helper lemmas about the embedded operations -/

theorem getD_replicate_zero (k i : Nat) : (List.replicate k (0 : ℚ)).getD i 0 = 0 := by
  simp

theorem zipWith_replicate_succ {α β γ : Type} (f : α → β → γ) (a : α) (b : β) (n : Nat) :
    List.zipWith f (List.replicate (n + 1) a) (List.replicate n b) =
      List.replicate n (f a b) := by
  induction n with
  | zero => rfl
  | succ n ih =>
    have h1 : List.replicate (n + 2) a = a :: List.replicate (n + 1) a := rfl
    have h2 : List.replicate (n + 1) b = b :: List.replicate n b := rfl
    rw [h1, h2, List.zipWith_cons_cons, ih]
    rfl

theorem sum_eq_sum_getD (l : List ℚ) :
    l.sum = ∑ i ∈ Finset.range l.length, l.getD i 0 := by
  induction l with
  | nil => simp
  | cons a t ih =>
    rw [List.sum_cons, List.length_cons, Finset.sum_range_succ', ih]
    simp [add_comm]

theorem dot_eq_sum (v : List ℚ) : ∀ w : List ℚ,
    dot v w = ∑ i ∈ Finset.range (min v.length w.length), v.getD i 0 * w.getD i 0 := by
  induction v with
  | nil => intro w; simp [dot]
  | cons a t ih =>
    intro w
    cases w with
    | nil => simp [dot]
    | cons b u =>
      have hmin : min (a :: t).length ((b :: u) : List ℚ).length = min t.length u.length + 1 := by
        simp [Nat.succ_min_succ]
      have hd : dot (a :: t) (b :: u) = a * b + dot t u := by
        simp [dot, List.zipWith_cons_cons]
      rw [hmin, Finset.sum_range_succ', hd, ih u]
      simp [add_comm]

theorem returns_length (prices : List (List ℚ)) :
    (returns_of prices).length = prices.length - 1 := by
  rw [returns_of, List.length_zipWith, List.length_tail]
  omega

theorem unitVec_length (n k : Nat) : (unitVec n k).length = n := by
  simp [unitVec]

theorem unitVec_getD (n k i : Nat) (hi : i < n) :
    (unitVec n k).getD i 0 = if i = k then 1 else 0 := by
  have h : i < (unitVec n k).length := by rw [unitVec_length]; exact hi
  rw [List.getD_eq_getElem _ _ h]
  simp [unitVec]

theorem unitVec_sum (n k : Nat) (hk : k < n) : (unitVec n k).sum = 1 := by
  rw [sum_eq_sum_getD, unitVec_length]
  have h : ∀ i ∈ Finset.range n, (unitVec n k).getD i 0 = if i = k then 1 else 0 :=
    fun i hi => unitVec_getD n k i (Finset.mem_range.mp hi)
  rw [Finset.sum_congr rfl h, Finset.sum_ite_eq' (Finset.range n) k (fun _ => (1 : ℚ)),
    if_pos (Finset.mem_range.mpr hk)]

theorem dot_unitVec (mu : List ℚ) (k : Nat) (hk : k < mu.length) :
    dot (unitVec mu.length k) mu = mu.getD k 0 := by
  rw [dot_eq_sum, unitVec_length, min_self]
  have h : ∀ i ∈ Finset.range mu.length,
      (unitVec mu.length k).getD i 0 * mu.getD i 0 =
        if i = k then mu.getD i 0 else 0 := by
    intro i hi
    rw [unitVec_getD mu.length k i (Finset.mem_range.mp hi), ite_mul, one_mul, zero_mul]
  rw [Finset.sum_congr rfl h, Finset.sum_ite_eq' (Finset.range mu.length) k,
    if_pos (Finset.mem_range.mpr hk)]

theorem unitVec_feasible (n k : Nat) (hk : k < n) : feasible n (unitVec n k) := by
  refine ⟨unitVec_length n k, ?_, unitVec_sum n k hk⟩
  intro x hx
  rw [unitVec] at hx
  obtain ⟨i, _, rfl⟩ := List.mem_map.mp hx
  by_cases hik : i = k <;> simp [hik]

theorem truncQ_eq_floor {q : ℚ} (h : 0 ≤ q) : truncQ q = ⌊q⌋ := if_pos h

theorem truncQ_le_self {q : ℚ} (h : 0 ≤ q) : (truncQ q : ℚ) ≤ q := by
  rw [truncQ_eq_floor h]
  exact Int.floor_le q

theorem quotients_all_finite (w : List ℚ) (B : ℚ) : ∀ prices : List ℚ,
    (∀ p ∈ prices, p ≠ 0) →
    astype_int (share_quotients (amountsList w B) (prices.map some)) =
      some (sharesList w B prices) := by
  induction w with
  | nil =>
    intro prices hp
    cases prices <;> rfl
  | cons wi w ih =>
    intro prices hp
    cases prices with
    | nil => rfl
    | cons p ps =>
      have hp0 : p ≠ 0 := hp p (List.mem_cons_self p ps)
      have hrest : ∀ q ∈ ps, q ≠ 0 := fun q hq => hp q (List.mem_cons_of_mem p hq)
      simp only [amountsList, List.map_cons, share_quotients, List.zipWith_cons_cons,
        Option.some_bind, if_neg hp0, astype_int, sharesList]
      rw [show astype_int (List.zipWith
            (fun a p => p.bind fun q => if q = 0 then none else some (a / q))
            (List.map (fun wi => wi * B) w) (List.map some ps)) =
          some (sharesList w B ps) from ih ps hrest]
      simp [sharesList]

theorem plan_eq (w : List ℚ) (B : ℚ) (prices : List ℚ) (hp : ∀ p ∈ prices, p ≠ 0) :
    print_allocation_plan w B (prices.map some) =
      some (amountsList w B, sharesList w B prices) := by
  rw [print_allocation_plan, quotients_all_finite w B prices hp, Option.map_some']

theorem sharesList_getD (w : List ℚ) (B : ℚ) (prices : List ℚ) (i : Nat)
    (h1 : i < w.length) (h2 : i < prices.length) :
    (sharesList w B prices).getD i 0 = truncQ (w.getD i 0 * B / prices.getD i 0) := by
  have hl : i < (sharesList w B prices).length := by
    rw [sharesList, List.length_zipWith]
    omega
  rw [List.getD_eq_getElem _ _ hl, List.getD_eq_getElem _ _ h1, List.getD_eq_getElem _ _ h2]
  simp [sharesList]

theorem amountsList_getD (w : List ℚ) (B : ℚ) (i : Nat) (h1 : i < w.length) :
    (amountsList w B).getD i 0 = w.getD i 0 * B := by
  have hl : i < (amountsList w B).length := by
    rw [amountsList, List.length_map]
    exact h1
  rw [List.getD_eq_getElem _ _ hl, List.getD_eq_getElem _ _ h1]
  simp [amountsList]

theorem cost_le (B : ℚ) (hB : 0 ≤ B) : ∀ w prices : List ℚ,
    (∀ x ∈ w, 0 ≤ x) → (∀ p ∈ prices, 0 < p) →
    (List.zipWith (fun (s : ℤ) (p : ℚ) => (s : ℚ) * p) (sharesList w B prices) prices).sum ≤
      B * w.sum := by
  intro w
  induction w with
  | nil => intro prices _ _; simp [sharesList]
  | cons wi w ih =>
    intro prices hw hp
    cases prices with
    | nil =>
      have hws : 0 ≤ (wi :: w).sum := List.sum_nonneg fun x hx => hw x hx
      simpa [sharesList] using mul_nonneg hB hws
    | cons p ps =>
      have hwi : 0 ≤ wi := hw wi (List.mem_cons_self wi w)
      have hp0 : 0 < p := hp p (List.mem_cons_self p ps)
      have hq : 0 ≤ wi * B / p := div_nonneg (mul_nonneg hwi hB) (le_of_lt hp0)
      have hhead : (truncQ (wi * B / p) : ℚ) * p ≤ wi * B := by
        have h1 : (truncQ (wi * B / p) : ℚ) * p ≤ wi * B / p * p :=
          mul_le_mul_of_nonneg_right (truncQ_le_self hq) (le_of_lt hp0)
        rwa [div_mul_cancel₀ _ (ne_of_gt hp0)] at h1
      have htail := ih ps (fun x hx => hw x (List.mem_cons_of_mem wi hx))
        (fun q hqm => hp q (List.mem_cons_of_mem p hqm))
      have hstep : (List.zipWith (fun (s : ℤ) (p : ℚ) => (s : ℚ) * p)
          (sharesList (wi :: w) B (p :: ps)) (p :: ps)).sum =
          (truncQ (wi * B / p) : ℚ) * p +
          (List.zipWith (fun (s : ℤ) (p : ℚ) => (s : ℚ) * p) (sharesList w B ps) ps).sum := by
        simp [sharesList]
      rw [hstep, List.sum_cons, mul_add, mul_comm B wi]
      exact add_le_add hhead htail

/-! ### Claim theorems -/

/-- C3 counterexample: with a solver outcome that reports non-convergence
(success = false), the engine of main_clean.py still returns the final
iterate as a weight vector, while the specification-modelled engine
raises OptimizationDivergedError.  The claim that a diverged solve
produces no weight vector is false of the code. -/
theorem diverged_counterexample :
    optimize_weights ⟨[1, 0], false⟩ = [1, 0] ∧
    spec_optimize ⟨[1, 0], false⟩ = Except.error CoreError.optimizationDiverged :=
  ⟨rfl, rfl⟩

/-- C3 (amended): the engine returns the solver's iterate res.x
unconditionally — it never consults the success flag and has no
OptimizationDivergedError path; the specification-modelled engine agrees
with it exactly when the solver reports convergence. -/
theorem diverged_amended (res : OptResult) :
    optimize_weights res = res.x ∧
    (spec_optimize res = Except.ok (optimize_weights res) ↔ res.success = true) := by
  refine ⟨rfl, ?_⟩
  cases res with
  | mk x s => cases s <;> simp [spec_optimize, optimize_weights]

/-- C4 counterexample: on a single-time-point price matrix the code does
not raise InsufficientDataError; pct_change().dropna() is empty, the mean
and covariance are NaN (none), and execution continues, while the
specification-modelled ReturnStatistics raises. -/
theorem insufficient_data_counterexample :
    returns_of [[(100 : ℚ)]] = [] ∧ mean_returns [[(100 : ℚ)]] = [none] ∧
    cov_matrix [[(100 : ℚ)]] = [[none]] ∧
    spec_return_statistics [[(100 : ℚ)]] = Except.error CoreError.insufficientData := by
  refine ⟨rfl, ?_, ?_, ?_⟩ <;>
    norm_num [mean_returns, cov_matrix, cov_entry, returns_of, numCols,
      spec_return_statistics, List.range_succ]

/-- C4 (amended): the return-statistics stage of main_clean.py raises
nothing: the cleaned return series is empty exactly when the price matrix
has fewer than 2 time points, and in that case every mean entry is NaN
(none) and the computation still produces these values. -/
theorem insufficient_data_never_raised (prices : List (List ℚ)) :
    (returns_of prices = [] ↔ prices.length < 2) ∧
    (prices.length < 2 → mean_returns prices = List.replicate (numCols prices) none) := by
  constructor
  · rw [← List.length_eq_zero, returns_length]
    omega
  · intro h
    have h0 : (returns_of prices).length = 0 := by rw [returns_length]; omega
    rw [mean_returns]
    simp only [h0, if_true, eq_self_iff_true]
    rw [List.map_const']
    simp

/-- Witness for C4 at a concrete single-row matrix. -/
theorem insufficient_data_witness :
    ([[(5 : ℚ)]].length < 2) ∧
    mean_returns [[(5 : ℚ)]] = List.replicate (numCols [[(5 : ℚ)]]) none :=
  ⟨by norm_num, (insufficient_data_never_raised [[(5 : ℚ)]]).2 (by norm_num)⟩

/-- C8 counterexample: on the 2-time-point, 1-asset matrix with prices
100 and 110 the pandas sample covariance of the single-row return series
is NaN (none), not the 0 the claim states. -/
theorem boundary_cov_counterexample :
    cov_matrix [[(100 : ℚ)], [110]] = [[none]] ∧
    cov_matrix [[(100 : ℚ)], [110]] ≠ [[some 0]] := by
  have h : cov_matrix [[(100 : ℚ)], [110]] = [[none]] := by
    norm_num [cov_matrix, cov_entry, returns_of, numCols, List.range_succ]
  exact ⟨h, by rw [h]; simp⟩

/-- C8 (amended): on a 2-time-point, 1-asset price matrix the return
series has length 1 with single entry (p1 - p0) / p0, the mean equals
that single return, and the covariance entry is NaN (none) — pandas'
unbiased estimator is undefined for a single observation. -/
theorem boundary_two_points (p0 p1 : ℚ) (h : p0 ≠ 0) :
    returns_of [[p0], [p1]] = [[(p1 - p0) / p0]] ∧
    (returns_of [[p0], [p1]]).length = 1 ∧
    mean_returns [[p0], [p1]] = [some ((p1 - p0) / p0)] ∧
    cov_matrix [[p0], [p1]] = [[none]] := by
  refine ⟨rfl, rfl, ?_, ?_⟩ <;>
    norm_num [mean_returns, cov_matrix, cov_entry, returns_of, numCols, colMean,
      List.range_succ]

/-- Witness for C8 at prices 50 and 60. -/
theorem boundary_two_points_witness :
    ((50 : ℚ) ≠ 0) ∧ mean_returns [[(50 : ℚ)], [60]] = [some ((60 - 50) / 50)] ∧
    cov_matrix [[(50 : ℚ)], [60]] = [[none]] :=
  ⟨by norm_num, (boundary_two_points 50 60 (by norm_num)).2.2.1,
    (boundary_two_points 50 60 (by norm_num)).2.2.2⟩

/-- C6: for positive finite prices the planner of main_clean.py computes
exactly the specification's allocation plan — dollar amount w[i] * B and
share count trunc((w[i] * B) / price[i]) toward zero — and on the
specification's own example (B = 10000, weights 0.5/0.3/0.2, prices
100/50/25) this plan is dollar amounts 5000/3000/2000 and share counts
50/60/80. -/
theorem allocation_plan_contract :
    (∀ (w : List ℚ) (B : ℚ) (prices : List ℚ), (∀ p ∈ prices, 0 < p) →
      print_allocation_plan w B (prices.map some) = some (spec_plan w B prices)) ∧
    spec_plan [1/2, 3/10, 1/5] 10000 [100, 50, 25] = ([5000, 3000, 2000], [50, 60, 80]) := by
  constructor
  · intro w B prices hp
    rw [spec_plan]
    exact plan_eq w B prices (fun p hpm => ne_of_gt (hp p hpm))
  · norm_num [spec_plan, sharesList, amountsList, truncQ]

/-- Witness for C6 on the specification's example. -/
theorem allocation_plan_witness :
    (∀ p ∈ [(100 : ℚ), 50, 25], 0 < p) ∧
    print_allocation_plan [1/2, 3/10, 1/5] 10000 (List.map some [100, 50, 25]) =
      some (spec_plan [1/2, 3/10, 1/5] 10000 [100, 50, 25]) :=
  ⟨by norm_num, allocation_plan_contract.1 [1/2, 3/10, 1/5] 10000 [100, 50, 25] (by norm_num)⟩

/-- C7 counterexample: with the strictly negative price -100 the planner
does not fail — the division is finite, astype(int) succeeds, and the
plan some ([100], [-1]) is produced — refuting the claim that any price
at most 0 makes it fail. -/
theorem invalid_price_counterexample :
    ((-100 : ℚ) < 0) ∧
    print_allocation_plan [1] 100 [some (-100)] = some ([100], [-1]) := by
  constructor
  · norm_num
  · norm_num [print_allocation_plan, share_quotients, amountsList, astype_int, truncQ,
      Int.ceil_neg]

/-- C7 (amended): the planner of main_clean.py aborts (in the astype(int)
cast, with no InvalidPriceError anywhere) exactly when some latest price
is NaN (none) or 0 — those are the prices whose quotient is non-finite;
every nonzero finite price, negative ones included, is accepted. -/
theorem invalid_price_amended (w : List ℚ) (B : ℚ) : ∀ prices : List (Option ℚ),
    w.length = prices.length →
    (print_allocation_plan w B prices = none ↔ ∃ p ∈ prices, p = none ∨ p = some 0) := by
  have key : ∀ (v : List ℚ) (prices : List (Option ℚ)), v.length = prices.length →
      (astype_int (share_quotients (amountsList v B) prices) = none ↔
        ∃ p ∈ prices, p = none ∨ p = some 0) := by
    intro v
    induction v with
    | nil =>
      intro prices hlen
      have hnil : prices = [] := List.eq_nil_of_length_eq_zero hlen.symm
      subst hnil
      simp [amountsList, share_quotients, astype_int]
    | cons wi v ih =>
      intro prices hlen
      cases prices with
      | nil => simp at hlen
      | cons p ps =>
        have hlen2 : v.length = ps.length := by simpa using hlen
        cases p with
        | none =>
          simp [amountsList, share_quotients, astype_int]
        | some q =>
          by_cases hq : q = 0
          · subst hq
            simp [amountsList, share_quotients, astype_int]
          · simp only [amountsList, List.map_cons, share_quotients,
              List.zipWith_cons_cons, Option.some_bind, if_neg hq, astype_int]
            rw [Option.map_eq_none']
            rw [show astype_int (List.zipWith
                  (fun a p => p.bind fun r => if r = 0 then none else some (a / r))
                  (List.map (fun x => x * B) v) ps) =
                astype_int (share_quotients (amountsList v B) ps) from rfl]
            rw [ih ps hlen2]
            simp [hq]
  intro prices hlen
  rw [print_allocation_plan, Option.map_eq_none']
  exact key w prices hlen

/-- Witness for C7 with one good and one missing price. -/
theorem invalid_price_witness :
    ([(1 : ℚ), 1].length = [some (2 : ℚ), none].length) ∧
    (print_allocation_plan [1, 1] 5 [some 2, none] = none ↔
      ∃ p ∈ [some (2 : ℚ), none], p = none ∨ p = some 0) :=
  ⟨rfl, invalid_price_amended [1, 1] 5 [some 2, none] rfl⟩

/-- C10: with weights in [0, 1] summing to at most 1, a nonnegative
budget and positive prices, the plan of main_clean.py never overspends —
each asset's share cost stays within its dollar amount and the total cost
of all purchased shares stays within the budget. -/
theorem no_overspend (w : List ℚ) (B : ℚ) (prices : List ℚ)
    (hw : ∀ x ∈ w, 0 ≤ x ∧ x ≤ 1) (hsum : w.sum ≤ 1) (hB : 0 ≤ B)
    (hp : ∀ p ∈ prices, 0 < p) :
    print_allocation_plan w B (prices.map some) =
      some (amountsList w B, sharesList w B prices) ∧
    (∀ i, i < w.length → i < prices.length →
      ((sharesList w B prices).getD i 0 : ℚ) * prices.getD i 0 ≤
        (amountsList w B).getD i 0) ∧
    (List.zipWith (fun (s : ℤ) (p : ℚ) => (s : ℚ) * p)
      (sharesList w B prices) prices).sum ≤ B := by
  refine ⟨plan_eq w B prices (fun p hpm => ne_of_gt (hp p hpm)), ?_, ?_⟩
  · intro i h1 h2
    have hwi : 0 ≤ w.getD i 0 := by
      have : w.getD i 0 ∈ w := by
        rw [List.getD_eq_getElem _ _ h1]
        exact List.getElem_mem h1
      exact (hw _ this).1
    have hpi : 0 < prices.getD i 0 := by
      have : prices.getD i 0 ∈ prices := by
        rw [List.getD_eq_getElem _ _ h2]
        exact List.getElem_mem h2
      exact hp _ this
    rw [sharesList_getD w B prices i h1 h2, amountsList_getD w B i h1]
    have hq : 0 ≤ w.getD i 0 * B / prices.getD i 0 :=
      div_nonneg (mul_nonneg hwi hB) (le_of_lt hpi)
    have h3 : (truncQ (w.getD i 0 * B / prices.getD i 0) : ℚ) * prices.getD i 0 ≤
        w.getD i 0 * B / prices.getD i 0 * prices.getD i 0 :=
      mul_le_mul_of_nonneg_right (truncQ_le_self hq) (le_of_lt hpi)
    rwa [div_mul_cancel₀ _ (ne_of_gt hpi)] at h3
  · have h1 := cost_le B hB w prices (fun x hx => (hw x hx).1) hp
    have h2 : B * w.sum ≤ B := by
      have := mul_le_mul_of_nonneg_left hsum hB
      rwa [mul_one] at this
    exact le_trans h1 h2

/-- Witness for C10 at a concrete plan. -/
theorem no_overspend_witness :
    ((∀ x ∈ [(1 : ℚ)/2, 1/4], 0 ≤ x ∧ x ≤ 1) ∧ [(1 : ℚ)/2, 1/4].sum ≤ 1 ∧
      (0 : ℚ) ≤ 100 ∧ (∀ p ∈ [(3 : ℚ), 7], 0 < p)) ∧
    (List.zipWith (fun (s : ℤ) (p : ℚ) => (s : ℚ) * p)
      (sharesList [1/2, 1/4] 100 [3, 7]) [3, 7]).sum ≤ 100 :=
  ⟨⟨by norm_num, by norm_num, by norm_num, by norm_num⟩,
    (no_overspend [1/2, 1/4] 100 [3, 7] (by norm_num) (by norm_num) (by norm_num)
      (by norm_num)).2.2⟩

/-- C9 counterexample: a constant-price matrix with exactly 2 time points
has a single-observation return series, so the pandas covariance is NaN
(none), not the all-zero matrix the claim states; the mean is 0 as
claimed. -/
theorem constant_prices_counterexample :
    mean_returns [[(7 : ℚ)], [7]] = [some 0] ∧
    cov_matrix [[(7 : ℚ)], [7]] = [[none]] ∧
    cov_matrix [[(7 : ℚ)], [7]] ≠ [[some 0]] := by
  have h : cov_matrix [[(7 : ℚ)], [7]] = [[none]] := by
    norm_num [cov_matrix, cov_entry, returns_of, numCols, List.range_succ]
  refine ⟨?_, h, by rw [h]; simp⟩
  norm_num [mean_returns, returns_of, numCols, colMean, List.range_succ]

/-- C9 (amended): on a constant-price matrix with at least 3 time points
(so that the cleaned return series has at least 2 observations) every
return is 0, the mean-return vector is all zeros and the covariance
matrix is all zeros; with exactly 2 time points the covariance is NaN
instead (see the counterexample). -/
theorem constant_prices (c : ℚ) (N M : Nat) (hc : c ≠ 0) (hN : 3 ≤ N) :
    mean_returns (List.replicate N (List.replicate M c)) = List.replicate M (some 0) ∧
    cov_matrix (List.replicate N (List.replicate M c)) =
      List.replicate M (List.replicate M (some 0)) := by
  obtain ⟨n, rfl⟩ : ∃ n, N = n + 1 := ⟨N - 1, by omega⟩
  have hn2 : 2 ≤ n := by omega
  have hret : returns_of (List.replicate (n + 1) (List.replicate M c)) =
      List.replicate n (List.replicate M (0 : ℚ)) := by
    rw [returns_of, List.tail_replicate]
    have he : n + 1 - 1 = n := rfl
    rw [he, zipWith_replicate_succ]
    have hrow : List.zipWith (fun p q => (q - p) / p)
        (List.replicate M c) (List.replicate M c) = List.replicate M (0 : ℚ) := by
      induction M with
      | zero => rfl
      | succ m ihm =>
        have h1 : List.replicate (m + 1) c = c :: List.replicate m c := rfl
        rw [h1, List.zipWith_cons_cons, ihm]
        simp [List.replicate_succ]
    rw [hrow]
  have hcols : numCols (List.replicate (n + 1) (List.replicate M c)) = M := by
    simp [numCols, List.replicate_succ]
  have hcolmean : ∀ a, colMean (List.replicate n (List.replicate M (0 : ℚ))) a = 0 := by
    intro a
    rw [colMean, List.map_replicate, getD_replicate_zero, List.sum_replicate, smul_zero,
      zero_div]
  have hn0 : n ≠ 0 := by omega
  constructor
  · rw [mean_returns, hret, hcols]
    simp only [List.length_replicate, if_neg hn0, hcolmean]
    rw [List.map_const']
    simp
  · rw [cov_matrix, hret, hcols]
    have hcov : ∀ a b, cov_entry (List.replicate n (List.replicate M (0 : ℚ))) a b =
        some 0 := by
      intro a b
      rw [cov_entry, if_neg (by simp; omega)]
      simp only [hcolmean, getD_replicate_zero, sub_zero]
      rw [List.map_replicate]
      simp only [getD_replicate_zero, sub_zero, mul_zero]
      rw [List.sum_replicate, smul_zero, zero_div]
    simp only [hcov]
    rw [List.map_const']
    rw [List.map_const']
    simp

/-- Witness for C9 on a 3-point constant matrix. -/
theorem constant_prices_witness :
    ((5 : ℚ) ≠ 0 ∧ 3 ≤ 3) ∧
    mean_returns (List.replicate 3 (List.replicate 1 (5 : ℚ))) = List.replicate 1 (some 0) ∧
    cov_matrix (List.replicate 3 (List.replicate 1 (5 : ℚ))) =
      List.replicate 1 (List.replicate 1 (some 0)) :=
  ⟨⟨by norm_num, le_refl 3⟩, (constant_prices 5 3 1 (by norm_num) (le_refl 3)).1,
    (constant_prices 5 3 1 (by norm_num) (le_refl 3)).2⟩

/-- C2: when one asset's mean return strictly dominates all others, the
optimization problem the engine hands to the solver — the objective
negative_return of source lines 74-75 over the feasible region of the
bounds and sum-to-one constraint of lines 77-78 — attains its optimum
value exactly at the corner vector concentrating all weight on the
dominant asset: the corner is feasible with objective value -(mu[k]),
every feasible w satisfies dot w mu ≤ mu[k], and equality holds exactly
at the corner. -/
theorem corner_optimum (mu w : List ℚ) (k : Nat) (hk : k < mu.length)
    (hdom : ∀ i < mu.length, i ≠ k → mu.getD i 0 < mu.getD k 0)
    (hfeas : feasible mu.length w) :
    feasible mu.length (unitVec mu.length k) ∧
    negative_return (unitVec mu.length k) mu = -(mu.getD k 0) ∧
    dot w mu ≤ mu.getD k 0 ∧
    (dot w mu = mu.getD k 0 ↔ w = unitVec mu.length k) := by
  obtain ⟨hlen, hbd, hsumw⟩ := hfeas
  have hdot : dot w mu = ∑ i ∈ Finset.range mu.length, w.getD i 0 * mu.getD i 0 := by
    rw [dot_eq_sum, hlen, min_self]
  have hsum1 : ∑ i ∈ Finset.range mu.length, w.getD i 0 = 1 := by
    have h := sum_eq_sum_getD w
    rw [hlen] at h
    rw [← h, hsumw]
  have hwnn : ∀ i ∈ Finset.range mu.length, 0 ≤ w.getD i 0 := by
    intro i hi
    have hiw : i < w.length := by rw [hlen]; exact Finset.mem_range.mp hi
    have hmem : w.getD i 0 ∈ w := by
      rw [List.getD_eq_getElem _ _ hiw]
      exact List.getElem_mem hiw
    exact (hbd _ hmem).1
  have hle : ∀ i ∈ Finset.range mu.length,
      w.getD i 0 * mu.getD i 0 ≤ w.getD i 0 * mu.getD k 0 := by
    intro i hi
    refine mul_le_mul_of_nonneg_left ?_ (hwnn i hi)
    by_cases hik : i = k
    · rw [hik]
    · exact le_of_lt (hdom i (Finset.mem_range.mp hi) hik)
  have hrhs : ∑ i ∈ Finset.range mu.length, w.getD i 0 * mu.getD k 0 = mu.getD k 0 := by
    rw [← Finset.sum_mul, hsum1, one_mul]
  have hub : dot w mu ≤ mu.getD k 0 := by
    rw [hdot, ← hrhs]
    exact Finset.sum_le_sum hle
  refine ⟨unitVec_feasible mu.length k hk, ?_, hub, ?_, ?_⟩
  · rw [negative_return, dot_unitVec mu k hk]
  · intro heq
    have hzero : ∀ i ∈ Finset.range mu.length, i ≠ k → w.getD i 0 = 0 := by
      by_contra hcon
      push_neg at hcon
      obtain ⟨j, hj, hjk, hne0⟩ := hcon
      have hpos : 0 < w.getD j 0 := lt_of_le_of_ne (hwnn j hj) (Ne.symm hne0)
      have hstrict : w.getD j 0 * mu.getD j 0 < w.getD j 0 * mu.getD k 0 :=
        mul_lt_mul_of_pos_left (hdom j (Finset.mem_range.mp hj) hjk) hpos
      have hlt : ∑ i ∈ Finset.range mu.length, w.getD i 0 * mu.getD i 0 <
          ∑ i ∈ Finset.range mu.length, w.getD i 0 * mu.getD k 0 :=
        Finset.sum_lt_sum hle ⟨j, hj, hstrict⟩
      rw [← hdot, hrhs, heq] at hlt
      exact lt_irrefl _ hlt
    have hwk : w.getD k 0 = 1 := by
      have h1 : ∑ i ∈ Finset.range mu.length, w.getD i 0 = w.getD k 0 :=
        Finset.sum_eq_single_of_mem k (Finset.mem_range.mpr hk)
          (fun i hi hik => hzero i hi hik)
      rw [h1] at hsum1
      exact hsum1
    apply List.ext_getElem
    · rw [hlen, unitVec_length]
    · intro i h1 h2
      have hin : i < mu.length := by rw [← hlen]; exact h1
      have hu : (unitVec mu.length k)[i] = if i = k then (1 : ℚ) else 0 := by
        rw [← List.getD_eq_getElem (unitVec mu.length k) 0 h2]
        exact unitVec_getD mu.length k i hin
      have hwgd : w[i] = w.getD i 0 := (List.getD_eq_getElem w 0 h1).symm
      rw [hwgd, hu]
      by_cases hik : i = k
      · rw [if_pos hik, hik, hwk]
      · rw [if_neg hik]
        exact hzero i (Finset.mem_range.mpr hin) hik
  · intro hw
    rw [hw]
    exact dot_unitVec mu k hk

/-- Witness for C2 with means 2 and 1 and the corner weight vector. -/
theorem corner_optimum_witness :
    ((0 < [(2 : ℚ), 1].length) ∧
      (∀ i < [(2 : ℚ), 1].length, i ≠ 0 →
        [(2 : ℚ), 1].getD i 0 < [(2 : ℚ), 1].getD 0 0) ∧
      feasible [(2 : ℚ), 1].length [1, 0]) ∧
    (feasible [(2 : ℚ), 1].length (unitVec [(2 : ℚ), 1].length 0) ∧
      negative_return (unitVec [(2 : ℚ), 1].length 0) [(2 : ℚ), 1] =
        -([(2 : ℚ), 1].getD 0 0) ∧
      dot [1, 0] [(2 : ℚ), 1] ≤ [(2 : ℚ), 1].getD 0 0 ∧
      (dot [1, 0] [(2 : ℚ), 1] = [(2 : ℚ), 1].getD 0 0 ↔
        [1, 0] = unitVec [(2 : ℚ), 1].length 0)) :=
  ⟨⟨by norm_num, by
      intro i hi hne
      have hi2 : i < 2 := by simpa using hi
      interval_cases i
      · exact absurd rfl hne
      · norm_num, by
      refine ⟨rfl, ?_, by norm_num⟩
      intro x hx
      simp only [List.mem_cons, List.mem_singleton] at hx
      rcases hx with rfl | rfl | h
      · norm_num
      · norm_num
      · simp at h⟩,
    corner_optimum [(2 : ℚ), 1] [1, 0] 0 (by norm_num)
      (by
        intro i hi hne
        have hi2 : i < 2 := by simpa using hi
        interval_cases i
        · exact absurd rfl hne
        · norm_num)
      (by
        refine ⟨rfl, ?_, by norm_num⟩
        intro x hx
        simp only [List.mem_cons, List.mem_singleton] at hx
        rcases hx with rfl | rfl | h
        · norm_num
        · norm_num
        · simp at h)⟩

/-- C5 counterexample: the code does not clamp the quadratic form before
the square root — on a (non-PSD) covariance input with wᵗCw = -1 the
volatility of main_clean.py is NaN (none) while the clamped volatility of
the specification is 0. -/
theorem volatility_no_clamp_counterexample :
    quadForm [(1 : ℚ)] [[-1]] < 0 ∧
    port_volatility [(1 : ℚ)] [[-1]] = none ∧
    specClampedVol [(1 : ℚ)] [[-1]] = 0 := by
  have hqf : quadForm [(1 : ℚ)] [[-1]] = -1 := by
    norm_num [quadForm, dot, matVec]
  refine ⟨by rw [hqf]; norm_num, ?_, ?_⟩
  · rw [port_volatility, if_neg]
    rw [hqf]
    norm_num
  · rw [specClampedVol, hqf]
    norm_num

/-- C5 (amended): for any weight vector, mean vector and square covariance
matrix, the metrics of main_clean.py satisfy: period return is the dot
product with the means, the quadratic form equals the specification's
double sum wᵗ·Cov·w, the period volatility is its square root whenever it
is nonnegative (and NaN otherwise — no clamping), annualized return is
the period return times 252 and annualized volatility the period
volatility times sqrt 252. -/
theorem metrics_formulas (w m : List ℚ) (C : List (List ℚ))
    (hC : C.length = w.length) (hrow : ∀ row ∈ C, row.length = w.length)
    (hq : 0 ≤ quadForm w C) :
    port_return w m = dot w m ∧
    quadForm w C = specQuadForm w C ∧
    port_volatility w C = some (Real.sqrt ((quadForm w C : ℚ) : ℝ)) ∧
    annual_return w m = port_return w m * 252 ∧
    annual_volatility w C =
      some (Real.sqrt ((quadForm w C : ℚ) : ℝ) * Real.sqrt 252) := by
  refine ⟨rfl, ?_, ?_, rfl, ?_⟩
  · rw [quadForm, dot_eq_sum]
    have hlen : (matVec C w).length = w.length := by
      rw [matVec, List.length_map, hC]
    rw [hlen, min_self, specQuadForm]
    apply Finset.sum_congr rfl
    intro i hi
    have hin : i < w.length := Finset.mem_range.mp hi
    have hiC : i < C.length := by rw [hC]; exact hin
    have hmv : (matVec C w).getD i 0 = dot (C.getD i []) w := by
      have h1 : i < (matVec C w).length := by rw [hlen]; exact hin
      rw [List.getD_eq_getElem _ _ h1, List.getD_eq_getElem _ _ hiC]
      simp [matVec]
    rw [hmv]
    have hrowlen : (C.getD i []).length = w.length := by
      have hm : C.getD i [] ∈ C := by
        rw [List.getD_eq_getElem _ _ hiC]
        exact List.getElem_mem hiC
      exact hrow _ hm
    rw [dot_eq_sum, hrowlen, min_self, Finset.mul_sum]
    apply Finset.sum_congr rfl
    intro j hj
    ring
  · rw [port_volatility, if_pos hq]
  · rw [annual_volatility, port_volatility, if_pos hq, Option.map_some']

/-- Witness for C5 with weight 1, mean 2 and covariance 4. -/
theorem metrics_formulas_witness :
    (([[(4 : ℚ)]] : List (List ℚ)).length = [(1 : ℚ)].length ∧
      (∀ row ∈ ([[(4 : ℚ)]] : List (List ℚ)), row.length = [(1 : ℚ)].length) ∧
      0 ≤ quadForm [(1 : ℚ)] [[4]]) ∧
    (port_return [(1 : ℚ)] [2] = dot [(1 : ℚ)] [2] ∧
      quadForm [(1 : ℚ)] [[4]] = specQuadForm [(1 : ℚ)] [[4]] ∧
      port_volatility [(1 : ℚ)] [[4]] =
        some (Real.sqrt ((quadForm [(1 : ℚ)] [[4]] : ℚ) : ℝ)) ∧
      annual_return [(1 : ℚ)] [2] = port_return [(1 : ℚ)] [2] * 252 ∧
      annual_volatility [(1 : ℚ)] [[4]] =
        some (Real.sqrt ((quadForm [(1 : ℚ)] [[4]] : ℚ) : ℝ) * Real.sqrt 252)) :=
  ⟨⟨rfl, by simp, by norm_num [quadForm, dot, matVec]⟩,
    metrics_formulas [(1 : ℚ)] [2] [[4]] rfl (by simp)
      (by norm_num [quadForm, dot, matVec])⟩

end PortfolioOpt
